import Mathlib

/-!
Verification of the pipeline execution engine of `etl-mark1`
(`backend/executor/engine.py`) and of the transform-step compiler
(`backend/services/duckdb_engine.py`).

The embedding below mirrors the Python source:

* Python dictionaries are embedded as insertion-ordered association lists
  (`dget?` / `dset`), matching `dict` semantics: an update keeps the key's
  position, an insert appends at the end.
* `PipelineExecutor._topological_sort` is embedded as `topologicalSort`
  (Kahn's algorithm, FIFO queue, fuel-bounded loop).
* `PipelineExecutor.execute`'s per-node retry loop and run state machine are
  embedded as `runAttempts` / `processNode` / `execNodes` / `executeRun`.
  The bodies of the node handlers perform external I/O (object storage,
  HTTP, DuckDB); they are abstracted by an `Oracle` giving, per node and
  attempt number, either a success (rows, log text, optionally a produced
  scratch path that the handler stores in `_node_outputs`) or a raised
  exception message.  The control flow around the handlers — input
  resolution, the missing-input guards of the transform/validation
  handlers, the unknown-type fallback, retry/backoff, node logs, run
  status, and scratch-file cleanup — is embedded concretely from the
  source.
* `time.sleep` is modelled by recording the slept durations in a trace.
* The filesystem is modelled as the list of existing paths; `os.unlink`
  removes a path, `os.path.exists` is membership.  The empty string is
  never an existing path (as in `os.path.exists("")`).
* `DuckDBEngine._step_to_sql` is embedded as `stepToSql` for the operators
  the claims concern (`merge_columns`, `deduplicate_rows`, and the
  unrecognized-operator fallback); the remaining recognized operators are
  not needed here.  The meaning of the emitted SQL fragments is given by
  evaluators (`mergeColumnsValue`, `dedupEval`) that implement the standard
  SQL semantics of exactly the emitted query shapes.
-/

/-- Lookup in a Python-dict-like association list: first matching key. -/
def dget? {α : Type} (k : String) : List (String × α) → Option α
  | [] => none
  | (k', v) :: rest => if k' = k then some v else dget? k rest

/-- Update/insert in a Python-dict-like association list: an existing key
keeps its position, a new key is appended at the end. -/
def dset {α : Type} (k : String) (v : α) : List (String × α) → List (String × α)
  | [] => [(k, v)]
  | (k', v') :: rest => if k' = k then (k', v) :: rest else (k', v') :: dset k v rest

/-- A pipeline node: `{"id": ..., "type": ...}` (the `data.config` payload is
irrelevant to the orchestrator-level claims and is abstracted away). -/
structure PNode where
  id : String
  type : String
deriving DecidableEq, Repr

/-- A pipeline edge: `{"source": ..., "target": ...}`. -/
structure PEdge where
  source : String
  target : String
deriving DecidableEq, Repr

/-- `in_degree = {n["id"]: 0 for n in nodes}` -/
def initInDeg (nodes : List PNode) : List (String × Int) :=
  nodes.foldl (fun d n => dset n.id 0 d) []

/-- `adjacency = {n["id"]: [] for n in nodes}` -/
def initAdj (nodes : List PNode) : List (String × List String) :=
  nodes.foldl (fun d n => dset n.id [] d) []

/-- `node_map = {n["id"]: n for n in nodes}` -/
def initNodeMap (nodes : List PNode) : List (String × PNode) :=
  nodes.foldl (fun d n => dset n.id n d) []

/-- The edge loop of `_topological_sort`:
`adjacency[src].append(tgt)` and `if tgt in in_degree: in_degree[tgt] += 1`.
(When `src` is not a node id the source raises `KeyError`; every claim below
is about graphs whose edges reference existing nodes, where that branch is
unreachable, so this total embedding starts the adjacency list fresh there.) -/
def buildGraphStep (st : List (String × Int) × List (String × List String))
    (e : PEdge) : List (String × Int) × List (String × List String) :=
  let adj := dset e.source ((dget? e.source st.2).getD [] ++ [e.target]) st.2
  let deg :=
    match dget? e.target st.1 with
    | some d => dset e.target (d + 1) st.1
    | none => st.1
  (deg, adj)

def buildGraph (nodes : List PNode) (edges : List PEdge) :
    List (String × Int) × List (String × List String) :=
  edges.foldl buildGraphStep (initInDeg nodes, initAdj nodes)

/-- The inner `for neighbor in adjacency.get(nid, [])` loop of Kahn's
algorithm: decrement each neighbor's in-degree and enqueue it when the
in-degree reaches exactly zero. -/
def kahnStepNeighbors : List String → List (String × Int) → List String →
    List (String × Int) × List String
  | [], inDeg, queue => (inDeg, queue)
  | nb :: rest, inDeg, queue =>
      let d := (dget? nb inDeg).getD 0 - 1
      let inDeg' := dset nb d inDeg
      let queue' := if d = 0 then queue ++ [nb] else queue
      kahnStepNeighbors rest inDeg' queue'

/-- The `while queue:` loop of Kahn's algorithm, with explicit fuel (the
source loop executes at most one iteration per node, see
`kahnLoop_spec`; `topologicalSort` supplies fuel `nodes.length + 1`,
which is never exhausted). -/
def kahnLoop (nodeMap : List (String × PNode)) (adj : List (String × List String)) :
    Nat → List String → List (String × Int) → List PNode → List PNode
  | 0, _, _, order => order
  | _ + 1, [], _, order => order
  | fuel + 1, nid :: rest, inDeg, order =>
      let order' :=
        match dget? nid nodeMap with
        | some n => order ++ [n]
        | none => order
      let st := kahnStepNeighbors ((dget? nid adj).getD []) inDeg rest
      kahnLoop nodeMap adj fuel st.2 st.1 order'

/-- `PipelineExecutor._topological_sort(nodes, edges)`. -/
def topologicalSort (nodes : List PNode) (edges : List PEdge) : List PNode :=
  let nodeMap := initNodeMap nodes
  let st := buildGraph nodes edges
  let queue := st.1.filterMap (fun p => if p.2 = 0 then some p.1 else none)
  kahnLoop nodeMap st.2 (nodes.length + 1) queue st.1 []

/-- Outcome of one invocation of a node handler body: either the dict
`{"rows": ..., "log": ...}` together with the scratch path the handler
stored in `self._node_outputs` (if any), or a raised exception message. -/
inductive HandlerOutcome where
  | ok (rows : Nat) (log : String) (out : Option String)
  | err (msg : String)
deriving DecidableEq, Repr

/-- Abstraction of the external effects of the node handlers: the outcome of
running a given node's handler body on a given attempt number. -/
def Oracle : Type := String → Nat → HandlerOutcome

/-- `PipelineExecutor._get_input_files(node_id, edges)`: the stored outputs
of the sources of the edges into `node_id`, in edge-list order, skipping
sources that have no stored output. -/
def getInputFiles (nodeId : String) (edges : List PEdge)
    (outputs : List (String × String)) : List String :=
  edges.filterMap (fun e => if e.target = nodeId then dget? e.source outputs else none)

/-- The node types dispatched by `PipelineExecutor._execute_node`. -/
def knownTypes : List String :=
  ["file_input", "connector_input", "transform", "validation", "file_output",
   "invoke_http", "webhook_send", "db_insert", "export", "merge", "conditional_branch"]

/-- `PipelineExecutor._execute_node`: resolve the upstream inputs, then
dispatch on the node type.  The missing-input guards raised by
`_exec_transform` / `_exec_validation` and the unknown-type fallback branch
are embedded concretely from the source; the remaining handler bodies (all
external I/O) are abstracted by the oracle. -/
def executeNode (oracle : Oracle) (attempt : Nat) (nodeId nodeType : String)
    (edges : List PEdge) (outputs : List (String × String)) : HandlerOutcome :=
  let inputFiles := getInputFiles nodeId edges outputs
  if nodeType = "transform" then
    if inputFiles = [] then HandlerOutcome.err "Transform node has no inputs"
    else oracle nodeId attempt
  else if nodeType = "validation" then
    if inputFiles = [] then HandlerOutcome.err "Validation node has no inputs"
    else oracle nodeId attempt
  else if knownTypes.contains nodeType then oracle nodeId attempt
  else HandlerOutcome.ok 0 ("Pass-through node type: " ++ nodeType) none

/-- `self._max_retries = 3` -/
def maxRetries : Nat := 3

/-- `self._retry_delay = 2` -/
def retryDelay : Nat := 2

/-- The `NodeRunLog` row for one node of one run, as finally committed:
`rows_out` and `attempt_no` are nullable and remain unset unless the code
assigns them. -/
structure NodeLog where
  nodeId : String
  nodeType : String
  status : String
  rowsOut : Option Nat
  logText : String
  attemptNo : Option Nat
deriving DecidableEq, Repr

/-- Result of the `for attempt in range(1, self._max_retries + 1)` loop for
one node: success with the result fields and the updated outputs mapping, or
exhaustion with the last error.  Both carry the `attempt_no` value assigned
so far and the trace of `time.sleep` durations. -/
inductive AttemptsResult where
  | succeeded (rows : Nat) (log : String) (outputs : List (String × String))
      (attemptNo : Option Nat) (sleeps : List Nat)
  | exhausted (lastError : String) (attemptNo : Option Nat) (sleeps : List Nat)
deriving DecidableEq, Repr

/-- The retry loop of `PipelineExecutor.execute` (lines 76-92): `remaining`
counts the attempts still allowed, `attempt` is the current attempt number;
on an exception the attempt number is recorded and, when further attempts
remain, the loop sleeps `retry_delay * attempt` before retrying. -/
def runAttempts (oracle : Oracle) (edges : List PEdge) (nodeId nodeType : String)
    (outputs : List (String × String)) :
    Nat → Nat → Option Nat → List Nat → Option String → AttemptsResult
  | 0, _, attemptNo, sleeps, lastErr =>
      AttemptsResult.exhausted (lastErr.getD "None") attemptNo sleeps
  | remaining + 1, attempt, attemptNo, sleeps, _ =>
      match executeNode oracle attempt nodeId nodeType edges outputs with
      | HandlerOutcome.ok rows log out =>
          let outputs' :=
            match out with
            | some p => dset nodeId p outputs
            | none => outputs
          AttemptsResult.succeeded rows log outputs' attemptNo sleeps
      | HandlerOutcome.err m =>
          let sleeps' :=
            if attempt < maxRetries then sleeps ++ [retryDelay * attempt] else sleeps
          runAttempts oracle edges nodeId nodeType outputs
            remaining (attempt + 1) (some attempt) sleeps' (some m)

/-- Outcome of processing a single node inside `execute`: its committed
`NodeRunLog`, plus on success the updated outputs mapping and the rows
added to the run total, and on failure the `ExecutionError` message raised
(`"Node {id} failed: {last_error}"`). -/
inductive NodeStepResult where
  | ok (log : NodeLog) (outputs : List (String × String)) (rows : Nat) (sleeps : List Nat)
  | failed (log : NodeLog) (errMsg : String) (sleeps : List Nat)
deriving DecidableEq, Repr

/-- One iteration of the `for node_def in order` loop of `execute`: run the
node through the retry loop and commit its `NodeRunLog`. -/
def processNode (oracle : Oracle) (edges : List PEdge)
    (outputs : List (String × String)) (n : PNode) : NodeStepResult :=
  match runAttempts oracle edges n.id n.type outputs maxRetries 1 none [] none with
  | AttemptsResult.succeeded rows log outputs' attemptNo sleeps =>
      NodeStepResult.ok ⟨n.id, n.type, "success", some rows, log, attemptNo⟩ outputs' rows sleeps
  | AttemptsResult.exhausted lastErr attemptNo sleeps =>
      NodeStepResult.failed
        ⟨n.id, n.type, "failed", none,
          "Failed after 3 attempts: " ++ lastErr, attemptNo⟩
        ("Node " ++ n.id ++ " failed: " ++ lastErr) sleeps

/-- The terminal state of one run: the run row's final status and fields,
the committed node logs, the `_node_outputs` mapping at exit, and the trace
of sleeps. -/
structure RunOutcome where
  status : String
  rowsProcessed : Option Nat
  errorMessage : Option String
  logs : List NodeLog
  outputs : List (String × String)
  sleeps : List Nat
deriving DecidableEq, Repr

/-- The `for node_def in order` loop of `execute`: process nodes until one
fails (which raises, aborting the loop and failing the run) or the order is
exhausted (run success with the accumulated row total). -/
def execNodes (oracle : Oracle) (edges : List PEdge) :
    List PNode → List (String × String) → List NodeLog → List Nat → Nat → RunOutcome
  | [], outputs, logs, sleeps, total =>
      ⟨"success", some total, none, logs, outputs, sleeps⟩
  | n :: rest, outputs, logs, sleeps, total =>
      match processNode oracle edges outputs n with
      | NodeStepResult.ok log outputs' rows ns =>
          execNodes oracle edges rest outputs' (logs ++ [log]) (sleeps ++ ns) (total + rows)
      | NodeStepResult.failed log errMsg ns =>
          ⟨"failed", none, some errMsg, logs ++ [log], outputs, sleeps ++ ns⟩

/-- The `finally:` block of `execute`: for every stored path, if it is
non-empty (`if path`) and exists, unlink it. -/
def cleanup (outputs : List (String × String)) (fs : List String) : List String :=
  outputs.foldl
    (fun cur p =>
      if p.2 ≠ "" ∧ p.2 ∈ cur then cur.filter (fun q => q ≠ p.2) else cur)
    fs

/-- `PipelineExecutor.execute` from the top of the `try:` block: order the
nodes, walk them, and on every exit path delete the stored scratch paths.
Returns the run outcome and the filesystem after cleanup. -/
def executeRun (oracle : Oracle) (nodes : List PNode) (edges : List PEdge)
    (fs : List String) : RunOutcome × List String :=
  let order := topologicalSort nodes edges
  let res := execNodes oracle edges order [] [] [] 0
  (res, cleanup res.outputs fs)

/-- Transform steps of `DuckDBEngine._step_to_sql`, restricted to the
operators the claims below concern; `other` stands for any unrecognized
operator (the source's final `else` branch).  `separator` is the optional
`params["separator"]` entry (`params.get("separator", " ")`). -/
inductive TStep where
  | mergeColumns (columns : List String) (separator : Option String) (newName : String)
  | deduplicateRows (columns : List String)
  | other
deriving DecidableEq, Repr

/-- The list comprehension of the `merge_columns` branch:
`f'COALESCE(CAST("{c}" AS VARCHAR), \'\')'`. -/
def coalescePart (c : String) : String :=
  "COALESCE(CAST(\"" ++ c ++ "\" AS VARCHAR), '')"

/-- `DuckDBEngine._step_to_sql(step, source_view)` for the embedded
operators.  In the `merge_columns` branch the source computes
`sep = params.get("separator", " ")` and then never uses it: the column
fragments are joined with the fixed SQL operator string `" || "`.  The
embedding reproduces this faithfully (`_sep` is bound and unused). -/
def stepToSql (step : TStep) (sourceView : String) : String :=
  match step with
  | TStep.mergeColumns cols sep newName =>
      let _sep := sep.getD " "
      let concatParts := String.intercalate " || " (cols.map coalescePart)
      "SELECT *, (" ++ concatParts ++ ") AS \"" ++ newName ++ "\" FROM " ++ sourceView
  | TStep.deduplicateRows cols =>
      if cols ≠ [] then
        let partition := String.intercalate ", " (cols.map (fun c => "\"" ++ c ++ "\""))
        "SELECT * FROM (SELECT *, ROW_NUMBER() OVER (PARTITION BY " ++ partition ++
          " ORDER BY ROWID) AS _rn FROM " ++ sourceView ++ ") WHERE _rn = 1"
      else
        "SELECT DISTINCT * FROM " ++ sourceView
  | TStep.other => "SELECT * FROM " ++ sourceView

/-- SQL scalar values occurring in the claims: strings, integers, NULL. -/
inductive Val where
  | vstr (s : String)
  | vint (n : Nat)
  | vnull
deriving DecidableEq, Repr

/-- A table row: an ordered list of (column name, value) pairs. -/
abbrev Row : Type := List (String × Val)

/-- Standard SQL evaluation of the fragment
`COALESCE(CAST("c" AS VARCHAR), '')` on a row: the column's value rendered
as a string, with NULL coalesced to the empty string. -/
def coalesceVarchar (row : Row) (c : String) : String :=
  match dget? c row with
  | some (Val.vstr s) => s
  | some (Val.vint n) => toString n
  | some Val.vnull => ""
  | none => ""

/-- Standard SQL evaluation of the expression actually emitted by the
`merge_columns` branch: the left-nested `||` chain of the coalesced casts,
i.e. plain concatenation of the column fragments with nothing in between. -/
def mergeColumnsValue (cols : List String) (row : Row) : String :=
  String.join (cols.map (coalesceVarchar row))

/-- Modelled from the spec: "merge N columns with a separator, coalescing
nulls to empty string" — the value the merged column would take if the
separator were placed between consecutive columns, as the claim states.
This definition follows the spec's words and exists to be compared with
`mergeColumnsValue`, the semantics of the SQL the source actually emits. -/
def mergeColumnsValueSpec (cols : List String) (sep : String) (row : Row) : String :=
  String.intercalate sep (cols.map (coalesceVarchar row))

/-- Projection of a row onto the partition columns, as compared by
`PARTITION BY`. -/
def rowVals (cols : List String) (row : Row) : List (Option Val) :=
  cols.map (fun c => dget? c row)

/-- Number of rows among `seen` falling in the same partition as `r`. -/
def partitionIndex (cols : List String) (seen : List Row) (r : Row) : Nat :=
  (seen.filter (fun s => rowVals cols s = rowVals cols r)).length

/-- Standard SQL evaluation of
`SELECT *, ROW_NUMBER() OVER (PARTITION BY cols ORDER BY ROWID) AS _rn`:
each row keeps all its columns and gains a trailing `_rn` column holding
its 1-based position within its partition in row order. -/
def withRn (cols : List String) : List Row → List Row → List Row
  | _, [] => []
  | seen, r :: rest =>
      (r ++ [("_rn", Val.vint (partitionIndex cols seen r + 1))]) ::
        withRn cols (seen ++ [r]) rest

/-- Standard SQL evaluation of `SELECT DISTINCT * FROM rows`: first
occurrence of each distinct row. -/
def distinctRows : List Row → List Row → List Row
  | _, [] => []
  | seen, r :: rest =>
      if r ∈ seen then distinctRows seen rest
      else r :: distinctRows (seen ++ [r]) rest

/-- Standard SQL evaluation of the query emitted by the `deduplicate_rows`
branch of `_step_to_sql`: with a non-empty column list, the row-numbered
rows filtered to `_rn = 1` by the outer `SELECT * ... WHERE _rn = 1`
(which keeps the `_rn` column); with an empty column list,
`SELECT DISTINCT *`. -/
def dedupEval (cols : List String) (rows : List Row) : List Row :=
  if cols = [] then distinctRows [] rows
  else (withRn cols [] rows).filter (fun r => dget? "_rn" r = some (Val.vint 1))

/-- Number of edges into `k` (the in-degree `_topological_sort` computes). -/
def ctA (edges : List PEdge) (k : String) : Nat :=
  (edges.filter (fun e => e.target = k)).length

/-- Number of edges into `k` whose source is among the already-ordered node
ids `oids`. -/
def ctO (edges : List PEdge) (oids : List String) (k : String) : Nat :=
  (edges.filter (fun e => e.target = k ∧ e.source ∈ oids)).length

/-- The adjacency list built for `k`: the targets of the edges out of `k`,
in edge-list order. -/
def srcTargets (edges : List PEdge) (k : String) : List String :=
  (edges.filter (fun e => e.source = k)).map (fun e => e.target)

/-- A graph is acyclic when its nodes can be ranked so that every edge
increases the rank (the standard characterization of a DAG). -/
def Acyclic (edges : List PEdge) : Prop :=
  ∃ rank : String → Nat, ∀ e ∈ edges, rank e.source < rank e.target

/-- The loop invariant of Kahn's algorithm as implemented by
`_topological_sort`: writing `oids` for the ids of the ordered nodes,

* the ordered ids and the queue are mutually distinct node ids,
* ordered nodes are pipeline nodes,
* every node id's stored in-degree equals its total in-degree minus the
  edges already consumed from ordered sources,
* a pending node id is queued exactly when all its in-edges are consumed,
* ordered node ids have all their in-edges consumed, and
* every edge whose target is ordered has its source ordered strictly
  earlier. -/
structure KahnInv (nodes : List PNode) (edges : List PEdge)
    (queue : List String) (inDeg : List (String × Int)) (order : List PNode) : Prop where
  nodup : ((order.map PNode.id) ++ queue).Nodup
  qids : ∀ k ∈ queue, k ∈ nodes.map PNode.id
  order_mem : ∀ n ∈ order, n ∈ nodes
  deg : ∀ k ∈ nodes.map PNode.id,
    dget? k inDeg = some ((ctA edges k : Int) - (ctO edges (order.map PNode.id) k : Int))
  queue_iff : ∀ k ∈ nodes.map PNode.id, k ∉ order.map PNode.id →
    (k ∈ queue ↔ ctO edges (order.map PNode.id) k = ctA edges k)
  done_full : ∀ k ∈ order.map PNode.id, ctO edges (order.map PNode.id) k = ctA edges k
  sorted : ∀ e ∈ edges, e.target ∈ order.map PNode.id →
    e.source ∈ order.map PNode.id ∧
      (order.map PNode.id).indexOf e.source < (order.map PNode.id).indexOf e.target

/-- What Kahn's loop is proved to return on a well-formed acyclic graph: a
duplicate-free arrangement of exactly the pipeline nodes in which every
edge's source precedes its target. -/
def KahnGoal (nodes : List PNode) (edges : List PEdge) (final : List PNode) : Prop :=
  (final.map PNode.id).Nodup ∧
  (∀ k, k ∈ final.map PNode.id ↔ k ∈ nodes.map PNode.id) ∧
  (∀ n ∈ final, n ∈ nodes) ∧
  (∀ e ∈ edges, e.target ∈ final.map PNode.id →
    e.source ∈ final.map PNode.id ∧
      (final.map PNode.id).indexOf e.source < (final.map PNode.id).indexOf e.target)

theorem dget?_dset_self {α : Type} (k : String) (v : α) (l : List (String × α)) :
    dget? k (dset k v l) = some v := by
  induction l with
  | nil => simp [dget?, dset]
  | cons p rest ih =>
      obtain ⟨k', v'⟩ := p
      by_cases h : k' = k
      · simp [dset, h, dget?]
      · simp [dset, h, dget?, ih]

theorem dget?_dset_ne {α : Type} (k k' : String) (v : α) (l : List (String × α))
    (h : k' ≠ k) : dget? k (dset k' v l) = dget? k l := by
  induction l with
  | nil => simp [dget?, dset, h]
  | cons p rest ih =>
      obtain ⟨k₀, v₀⟩ := p
      by_cases h0 : k₀ = k'
      · subst h0
        simp [dset, dget?, h]
      · by_cases h1 : k₀ = k <;> simp [dset, h0, dget?, h1, ih, Ne.symm h]

theorem dset_of_not_mem {α : Type} (k : String) (v : α) (l : List (String × α))
    (h : k ∉ l.map Prod.fst) : dset k v l = l ++ [(k, v)] := by
  induction l with
  | nil => simp [dset]
  | cons p rest ih =>
      obtain ⟨k₀, v₀⟩ := p
      simp only [List.map_cons, List.mem_cons] at h
      push_neg at h
      simp [dset, Ne.symm h.1, ih h.2]

theorem dget?_map_pairs {β : Type} (nodes : List PNode) (g : String → β) (k : String) :
    dget? k (nodes.map (fun n => (n.id, g n.id))) =
      if k ∈ nodes.map PNode.id then some (g k) else none := by
  induction nodes with
  | nil => simp [dget?]
  | cons n rest ih =>
      by_cases h : n.id = k
      · simp [dget?, h]
      · simp [dget?, h, ih, Ne.symm h]

theorem map_pairs_congr {β : Type} (nodes : List PNode) (g g' : String → β)
    (h : ∀ k ∈ nodes.map PNode.id, g k = g' k) :
    nodes.map (fun n => (n.id, g n.id)) = nodes.map (fun n => (n.id, g' n.id)) := by
  apply List.map_congr_left
  intro n hn
  rw [h n.id (List.mem_map_of_mem _ hn)]

theorem dset_map_pairs {β : Type} (nodes : List PNode) (g : String → β) (k : String) (v : β)
    (hk : k ∈ nodes.map PNode.id) (hd : (nodes.map PNode.id).Nodup) :
    dset k v (nodes.map (fun n => (n.id, g n.id))) =
      nodes.map (fun n => (n.id, if n.id = k then v else g n.id)) := by
  induction nodes with
  | nil => simp at hk
  | cons n rest ih =>
      simp only [List.map_cons] at hd ⊢
      by_cases h : n.id = k
      · simp only [dset, h, if_pos rfl, if_true]
        congr 1
        apply List.map_congr_left
        intro m hm
        have : m.id ≠ k := by
          intro e
          exact (List.nodup_cons.mp hd).1 (h ▸ e ▸ List.mem_map_of_mem _ hm)
        simp [this]
      · have hk' : k ∈ rest.map PNode.id := by
          rcases List.mem_cons.mp hk with h1 | h1
          · exact absurd h1.symm h
          · exact h1
        simp [dset, h, ih hk' (List.nodup_cons.mp hd).2]

theorem foldl_dset_pairs {β : Type} (f : PNode → β) :
    ∀ (nodes : List PNode) (d : List (String × β)),
      (∀ n ∈ nodes, n.id ∉ d.map Prod.fst) → (nodes.map PNode.id).Nodup →
      nodes.foldl (fun d n => dset n.id (f n) d) d = d ++ nodes.map (fun n => (n.id, f n)) := by
  intro nodes
  induction nodes with
  | nil => intro d _ _; simp
  | cons n rest ih =>
      intro d hfresh hd
      simp only [List.foldl_cons]
      rw [dset_of_not_mem n.id (f n) d (hfresh n (List.mem_cons_self n rest))]
      rw [ih (d ++ [(n.id, f n)])]
      · simp
      · intro m hm
        simp only [List.map_append, List.mem_append]
        push_neg
        refine ⟨hfresh m (List.mem_cons_of_mem _ hm), ?_⟩
        have : m.id ≠ n.id := by
          intro e
          simp only [List.map_cons, List.nodup_cons] at hd
          exact hd.1 (e ▸ List.mem_map_of_mem _ hm)
        simp [this]
      · exact (List.nodup_cons.mp (by simpa using hd)).2

theorem initInDeg_eq (nodes : List PNode) (hd : (nodes.map PNode.id).Nodup) :
    initInDeg nodes = nodes.map (fun n => (n.id, (0 : Int))) := by
  unfold initInDeg
  simpa using foldl_dset_pairs (fun _ => (0 : Int)) nodes [] (by simp) hd

theorem initAdj_eq (nodes : List PNode) (hd : (nodes.map PNode.id).Nodup) :
    initAdj nodes = nodes.map (fun n => (n.id, ([] : List String))) := by
  unfold initAdj
  simpa using foldl_dset_pairs (fun _ => ([] : List String)) nodes [] (by simp) hd

theorem initNodeMap_eq (nodes : List PNode) (hd : (nodes.map PNode.id).Nodup) :
    initNodeMap nodes = nodes.map (fun n => (n.id, n)) := by
  unfold initNodeMap
  simpa using foldl_dset_pairs (fun n => n) nodes [] (by simp) hd

theorem dget?_initNodeMap (nodes : List PNode) (hd : (nodes.map PNode.id).Nodup)
    (n : PNode) (hn : n ∈ nodes) : dget? n.id (initNodeMap nodes) = some n := by
  rw [initNodeMap_eq nodes hd]
  induction nodes with
  | nil => simp at hn
  | cons m rest ih =>
      simp only [List.map_cons, List.nodup_cons] at hd
      by_cases h : m.id = n.id
      · have : m = n := by
          rcases List.mem_cons.mp hn with h1 | h1
          · exact h1.symm
          · exact absurd (h ▸ List.mem_map_of_mem PNode.id h1) hd.1
        simp [dget?, h, this]
      · have hn' : n ∈ rest := by
          rcases List.mem_cons.mp hn with h1 | h1
          · exact absurd (congrArg PNode.id h1.symm) h
          · exact h1
        simp [dget?, h, ih hd.2 hn']

theorem ctA_cons (e : PEdge) (rest : List PEdge) (k : String) :
    ctA (e :: rest) k = (if e.target = k then 1 else 0) + ctA rest k := by
  by_cases h : e.target = k
  · simp [ctA, List.filter_cons, h]
    omega
  · simp [ctA, List.filter_cons, h]

theorem srcTargets_cons (e : PEdge) (rest : List PEdge) (k : String) :
    srcTargets (e :: rest) k =
      if e.source = k then e.target :: srcTargets rest k else srcTargets rest k := by
  by_cases h : e.source = k <;> simp [srcTargets, List.filter_cons, h]

theorem buildGraphStep_pairs (nodes : List PNode) (hd : (nodes.map PNode.id).Nodup)
    (e : PEdge) (f : String → Int) (g : String → List String)
    (hsrc : e.source ∈ nodes.map PNode.id) :
    buildGraphStep
        (nodes.map (fun n => (n.id, f n.id)), nodes.map (fun n => (n.id, g n.id))) e =
      (nodes.map (fun n => (n.id, if n.id = e.target then f n.id + 1 else f n.id)),
       nodes.map (fun n => (n.id, if n.id = e.source then g n.id ++ [e.target] else g n.id))) := by
  unfold buildGraphStep
  have hadj :
      dset e.source
          ((dget? e.source (nodes.map (fun n => (n.id, g n.id)))).getD [] ++ [e.target])
          (nodes.map (fun n => (n.id, g n.id))) =
        nodes.map (fun n => (n.id, if n.id = e.source then g n.id ++ [e.target] else g n.id)) := by
    rw [dget?_map_pairs, if_pos hsrc, dset_map_pairs _ _ _ _ hsrc hd]
    apply List.map_congr_left
    intro n hn
    by_cases h : n.id = e.source <;> simp [h]
  have hdeg :
      (match dget? e.target (nodes.map (fun n => (n.id, f n.id))) with
        | some d => dset e.target (d + 1) (nodes.map (fun n => (n.id, f n.id)))
        | none => nodes.map (fun n => (n.id, f n.id))) =
        nodes.map (fun n => (n.id, if n.id = e.target then f n.id + 1 else f n.id)) := by
    rw [dget?_map_pairs]
    by_cases ht : e.target ∈ nodes.map PNode.id
    · rw [if_pos ht]
      show dset e.target (f e.target + 1) (nodes.map (fun n => (n.id, f n.id))) =
        nodes.map (fun n => (n.id, if n.id = e.target then f n.id + 1 else f n.id))
      rw [dset_map_pairs _ _ _ _ ht hd]
      apply List.map_congr_left
      intro n hn
      by_cases h : n.id = e.target <;> simp [h]
    · rw [if_neg ht]
      show nodes.map (fun n => (n.id, f n.id)) =
        nodes.map (fun n => (n.id, if n.id = e.target then f n.id + 1 else f n.id))
      apply List.map_congr_left
      intro n hn
      have : n.id ≠ e.target := by
        intro h
        exact ht (h ▸ List.mem_map_of_mem _ hn)
      simp [this]
  simp only []
  rw [hadj, hdeg]

theorem buildGraph_go (nodes : List PNode) (hd : (nodes.map PNode.id).Nodup) :
    ∀ (edges : List PEdge) (f : String → Int) (g : String → List String),
      (∀ e ∈ edges, e.source ∈ nodes.map PNode.id) →
      edges.foldl buildGraphStep
          (nodes.map (fun n => (n.id, f n.id)), nodes.map (fun n => (n.id, g n.id))) =
        (nodes.map (fun n => (n.id, f n.id + (ctA edges n.id : Int))),
         nodes.map (fun n => (n.id, g n.id ++ srcTargets edges n.id))) := by
  intro edges
  induction edges with
  | nil =>
      intro f g _
      simp [ctA, srcTargets]
  | cons e rest ih =>
      intro f g hv
      have hsrc : e.source ∈ nodes.map PNode.id := hv e (List.mem_cons_self _ _)
      rw [List.foldl_cons, buildGraphStep_pairs nodes hd e f g hsrc]
      refine Eq.trans
        (ih (fun k => if k = e.target then f k + 1 else f k)
            (fun k => if k = e.source then g k ++ [e.target] else g k)
            (fun e' he' => hv e' (List.mem_cons_of_mem _ he'))) ?_
      refine Prod.ext ?_ ?_
      · apply List.map_congr_left
        intro n hn
        refine Prod.ext rfl ?_
        show (if n.id = e.target then f n.id + 1 else f n.id) + (ctA rest n.id : Int) =
          f n.id + (ctA (e :: rest) n.id : Int)
        rw [ctA_cons]
        by_cases h : e.target = n.id
        · simp [h]
          ring
        · have h' : n.id ≠ e.target := fun hh => h hh.symm
          simp [h, h']
      · apply List.map_congr_left
        intro n hn
        refine Prod.ext rfl ?_
        show (if n.id = e.source then g n.id ++ [e.target] else g n.id) ++ srcTargets rest n.id =
          g n.id ++ srcTargets (e :: rest) n.id
        rw [srcTargets_cons]
        by_cases h : e.source = n.id
        · simp [h]
        · have h' : n.id ≠ e.source := fun hh => h hh.symm
          simp [h, h']

theorem buildGraph_fst (nodes : List PNode) (edges : List PEdge)
    (hd : (nodes.map PNode.id).Nodup)
    (hv : ∀ e ∈ edges, e.source ∈ nodes.map PNode.id) :
    (buildGraph nodes edges).1 = nodes.map (fun n => (n.id, (ctA edges n.id : Int))) := by
  unfold buildGraph
  rw [initInDeg_eq nodes hd, initAdj_eq nodes hd]
  rw [buildGraph_go nodes hd edges (fun _ => 0) (fun _ => []) hv]
  simp

theorem buildGraph_snd (nodes : List PNode) (edges : List PEdge)
    (hd : (nodes.map PNode.id).Nodup)
    (hv : ∀ e ∈ edges, e.source ∈ nodes.map PNode.id) :
    (buildGraph nodes edges).2 = nodes.map (fun n => (n.id, srcTargets edges n.id)) := by
  unfold buildGraph
  rw [initInDeg_eq nodes hd, initAdj_eq nodes hd]
  rw [buildGraph_go nodes hd edges (fun _ => 0) (fun _ => []) hv]
  simp

theorem initial_queue_eq (nodes : List PNode) (edges : List PEdge)
    (hd : (nodes.map PNode.id).Nodup)
    (hv : ∀ e ∈ edges, e.source ∈ nodes.map PNode.id) :
    (buildGraph nodes edges).1.filterMap (fun p => if p.2 = 0 then some p.1 else none) =
      (nodes.map PNode.id).filter (fun k => ctA edges k = 0) := by
  rw [buildGraph_fst nodes edges hd hv]
  clear hd hv
  induction nodes with
  | nil => simp
  | cons n rest ih =>
      simp only [List.map_cons, List.filterMap_cons, List.filter_cons]
      by_cases h : ctA edges n.id = 0
      · have h2 : ((ctA edges n.id : Int)) = 0 := by simpa using h
        simp [h2, h, ih]
      · have h2 : ((ctA edges n.id : Int)) ≠ 0 := by simpa using h
        simp [h2, h, ih]

theorem kahnStepNeighbors_spec :
    ∀ (L : List String) (inDeg : List (String × Int)) (queue : List String),
      (∀ k ∈ L, ∃ v : Int, dget? k inDeg = some v ∧ (L.count k : Int) ≤ v) →
      (∀ k ∈ queue, k ∉ L) →
      (∀ (k : String) (v : Int), dget? k inDeg = some v →
          dget? k (kahnStepNeighbors L inDeg queue).1 = some (v - (L.count k : Int))) ∧
      (∀ k : String, k ∈ (kahnStepNeighbors L inDeg queue).2 ↔
          (k ∈ queue ∨ (0 < L.count k ∧ dget? k inDeg = some ((L.count k : Int))))) ∧
      (queue.Nodup → (kahnStepNeighbors L inDeg queue).2.Nodup) := by
  intro L
  induction L with
  | nil =>
      intro inDeg queue hL hq
      refine ⟨?_, ?_, ?_⟩
      · intro k v hv; simpa [kahnStepNeighbors] using hv
      · intro k; simp [kahnStepNeighbors]
      · intro h; simpa [kahnStepNeighbors] using h
  | cons nb rest ih =>
      intro inDeg queue hL hq
      obtain ⟨v, hv, hcnt⟩ := hL nb (List.mem_cons_self _ _)
      rw [List.count_cons_self] at hcnt
      push_cast at hcnt
      have hunfold : kahnStepNeighbors (nb :: rest) inDeg queue =
          kahnStepNeighbors rest (dset nb (v - 1) inDeg)
            (if v - 1 = 0 then queue ++ [nb] else queue) := by
        simp [kahnStepNeighbors, hv]
      have hL' : ∀ k ∈ rest, ∃ w : Int,
          dget? k (dset nb (v - 1) inDeg) = some w ∧ (rest.count k : Int) ≤ w := by
        intro k hk
        by_cases hknb : k = nb
        · subst hknb
          exact ⟨v - 1, by rw [dget?_dset_self], by omega⟩
        · obtain ⟨w, hw, hcw⟩ := hL k (List.mem_cons_of_mem _ hk)
          rw [List.count_cons_of_ne hknb] at hcw
          exact ⟨w, by rw [dget?_dset_ne k nb _ _ (fun h => hknb h.symm)]; exact hw, hcw⟩
      have hq'core : ∀ k ∈ queue, k ∉ rest :=
        fun k hk hkr => hq k hk (List.mem_cons_of_mem _ hkr)
      by_cases hv1 : v - 1 = 0
      · have hc0 : rest.count nb = 0 := by omega
        have hnbrest : nb ∉ rest := List.count_eq_zero.mp hc0
        have hq' : ∀ k ∈ queue ++ [nb], k ∉ rest := by
          intro k hk
          rcases List.mem_append.mp hk with h | h
          · exact hq'core k h
          · simp only [List.mem_singleton] at h; subst h; exact hnbrest
        obtain ⟨ih1, ih2, ih3⟩ := ih (dset nb (v - 1) inDeg) (queue ++ [nb]) hL' hq'
        rw [hunfold, if_pos hv1]
        refine ⟨?_, ?_, ?_⟩
        · intro k v₀ hv₀
          by_cases hknb : k = nb
          · subst hknb
            have hvv : v = v₀ := by rw [hv] at hv₀; exact Option.some.inj hv₀
            rw [ih1 k (v - 1) (dget?_dset_self k (v - 1) inDeg)]
            congr 1
            rw [List.count_cons_self]
            push_cast
            omega
          · have hne : nb ≠ k := fun h => hknb h.symm
            rw [ih1 k v₀ (by rw [dget?_dset_ne k nb _ _ hne]; exact hv₀)]
            congr 1
            rw [List.count_cons_of_ne hknb]
        · intro k
          rw [ih2 k]
          by_cases hknb : k = nb
          · subst hknb
            constructor
            · intro _
              right
              refine ⟨by simp [List.count_cons_self], ?_⟩
              rw [hv]
              congr 1
              rw [List.count_cons_self, hc0]
              push_cast
              omega
            · intro _
              exact Or.inl (by simp)
          · have hne : nb ≠ k := fun h => hknb h.symm
            rw [dget?_dset_ne k nb _ _ hne, List.count_cons_of_ne hknb]
            simp [List.mem_append, hknb]
        · intro hnod
          apply ih3
          simp only [List.nodup_append, List.disjoint_singleton]
          exact ⟨hnod, List.nodup_singleton nb, fun h => hq nb h (List.mem_cons_self _ _)⟩
      · obtain ⟨ih1, ih2, ih3⟩ := ih (dset nb (v - 1) inDeg) queue hL' hq'core
        rw [hunfold, if_neg hv1]
        refine ⟨?_, ?_, ?_⟩
        · intro k v₀ hv₀
          by_cases hknb : k = nb
          · subst hknb
            have hvv : v = v₀ := by rw [hv] at hv₀; exact Option.some.inj hv₀
            rw [ih1 k (v - 1) (dget?_dset_self k (v - 1) inDeg)]
            congr 1
            rw [List.count_cons_self]
            push_cast
            omega
          · have hne : nb ≠ k := fun h => hknb h.symm
            rw [ih1 k v₀ (by rw [dget?_dset_ne k nb _ _ hne]; exact hv₀)]
            congr 1
            rw [List.count_cons_of_ne hknb]
        · intro k
          rw [ih2 k]
          by_cases hknb : k = nb
          · subst hknb
            constructor
            · rintro (h | ⟨hc, heq⟩)
              · exact Or.inl h
              · rw [dget?_dset_self] at heq
                have hveq : v - 1 = (rest.count k : Int) := Option.some.inj heq
                right
                refine ⟨by simp [List.count_cons_self], ?_⟩
                rw [hv]
                congr 1
                rw [List.count_cons_self]
                push_cast
                omega
            · rintro (h | ⟨hc, heq⟩)
              · exact Or.inl h
              · rw [hv] at heq
                have hveq : v = (((k :: rest).count k : Nat) : Int) := Option.some.inj heq
                rw [List.count_cons_self] at hveq
                push_cast at hveq
                right
                refine ⟨by omega, ?_⟩
                rw [dget?_dset_self]
                congr 1
                omega
          · have hne : nb ≠ k := fun h => hknb h.symm
            rw [dget?_dset_ne k nb _ _ hne, List.count_cons_of_ne hknb]
        · exact ih3

theorem length_filter_le_of_imp {α : Type} (p q : α → Bool) (l : List α)
    (h : ∀ x ∈ l, p x = true → q x = true) :
    (l.filter p).length ≤ (l.filter q).length := by
  induction l with
  | nil => simp
  | cons a t ih =>
      have iht := ih (fun x hx => h x (List.mem_cons_of_mem _ hx))
      by_cases hp : p a = true
      · rw [List.filter_cons, if_pos hp, List.filter_cons, if_pos (h a (List.mem_cons_self _ _) hp)]
        simpa using iht
      · rw [List.filter_cons, if_neg hp, List.filter_cons]
        by_cases hq : q a = true
        · rw [if_pos hq]
          exact le_trans iht (by simp)
        · rw [if_neg hq]
          exact iht

theorem filter_pointwise_of_length_eq {α : Type} (p q : α → Bool) (l : List α)
    (himp : ∀ x ∈ l, q x = true → p x = true)
    (hlen : (l.filter q).length = (l.filter p).length) :
    ∀ x ∈ l, p x = true → q x = true := by
  induction l with
  | nil => simp
  | cons a t ih =>
      have himpt : ∀ x ∈ t, q x = true → p x = true :=
        fun x hx => himp x (List.mem_cons_of_mem _ hx)
      by_cases hqa : q a = true
      · have hpa : p a = true := himp a (List.mem_cons_self _ _) hqa
        rw [List.filter_cons, if_pos hqa, List.filter_cons, if_pos hpa] at hlen
        simp only [List.length_cons, Nat.add_right_cancel_iff] at hlen
        intro x hx hp
        rcases List.mem_cons.mp hx with rfl | hx'
        · exact hqa
        · exact ih himpt hlen x hx' hp
      · by_cases hpa : p a = true
        · rw [List.filter_cons, if_neg hqa, List.filter_cons, if_pos hpa] at hlen
          have hle := length_filter_le_of_imp q p t himpt
          simp only [List.length_cons] at hlen
          omega
        · rw [List.filter_cons, if_neg hqa, List.filter_cons, if_neg hpa] at hlen
          intro x hx hp
          rcases List.mem_cons.mp hx with rfl | hx'
          · exact absurd hp hpa
          · exact ih himpt hlen x hx' hp

theorem length_filter_add_le {α : Type} (p q r : α → Bool) (l : List α)
    (hp : ∀ x ∈ l, p x = true → r x = true)
    (hq : ∀ x ∈ l, q x = true → r x = true)
    (hdisj : ∀ x ∈ l, ¬(p x = true ∧ q x = true)) :
    (l.filter p).length + (l.filter q).length ≤ (l.filter r).length := by
  induction l with
  | nil => simp
  | cons a t ih =>
      have iht := ih (fun x hx => hp x (List.mem_cons_of_mem _ hx))
        (fun x hx => hq x (List.mem_cons_of_mem _ hx))
        (fun x hx => hdisj x (List.mem_cons_of_mem _ hx))
      rw [List.filter_cons, List.filter_cons, List.filter_cons]
      by_cases hpa : p a = true
      · have hra := hp a (List.mem_cons_self _ _) hpa
        have hqa : ¬ q a = true := fun hqa => hdisj a (List.mem_cons_self _ _) ⟨hpa, hqa⟩
        rw [if_pos hpa, if_neg hqa, if_pos hra]
        simp only [List.length_cons]
        omega
      · rw [if_neg hpa]
        by_cases hqa : q a = true
        · have hra := hq a (List.mem_cons_self _ _) hqa
          rw [if_pos hqa, if_pos hra]
          simp only [List.length_cons]
          omega
        · rw [if_neg hqa]
          by_cases hra : r a = true
          · rw [if_pos hra]
            exact le_trans iht (by simp)
          · rw [if_neg hra]
            exact iht

theorem ctO_nil (edges : List PEdge) (k : String) : ctO edges [] k = 0 := by
  simp [ctO]

theorem ctO_append_single (edges : List PEdge) (oids : List String) (nid k : String)
    (h : nid ∉ oids) :
    ctO edges (oids ++ [nid]) k =
      ctO edges oids k +
        (edges.filter (fun e => e.source = nid ∧ e.target = k)).length := by
  induction edges with
  | nil => simp [ctO]
  | cons e rest ih =>
      unfold ctO at ih ⊢
      rw [List.filter_cons, List.filter_cons, List.filter_cons]
      by_cases h1 : e.target = k
      · by_cases h3 : e.source = nid
        · have h2 : e.source ∉ oids := fun hm => h (h3 ▸ hm)
          rw [if_pos (by simp [h1, h3]), if_neg (by simp [h1, h2]), if_pos (by simp [h1, h3])]
          simp only [List.length_cons]
          omega
        · by_cases h2 : e.source ∈ oids
          · rw [if_pos (by simp [h1, h2]), if_pos (by simp [h1, h2]), if_neg (by simp [h3])]
            simp only [List.length_cons]
            omega
          · rw [if_neg (by simp [h1, h2, h3]), if_neg (by simp [h1, h2]), if_neg (by simp [h3])]
            exact ih
      · rw [if_neg (by simp [h1]), if_neg (by simp [h1]), if_neg (by simp [h1])]
        exact ih

theorem count_srcTargets (edges : List PEdge) (nid k : String) :
    (srcTargets edges nid).count k =
      (edges.filter (fun e => e.source = nid ∧ e.target = k)).length := by
  induction edges with
  | nil => simp [srcTargets]
  | cons e rest ih =>
      rw [srcTargets_cons, List.filter_cons]
      by_cases h3 : e.source = nid
      · by_cases h1 : e.target = k
        · rw [if_pos h3, if_pos (by simp [h1, h3])]
          rw [show e.target = k from h1, List.count_cons_self]
          simp only [List.length_cons]
          omega
        · rw [if_pos h3, if_neg (by simp [h1])]
          rw [List.count_cons_of_ne (fun hh => h1 hh.symm)]
          exact ih
      · rw [if_neg h3, if_neg (by simp [h3])]
        exact ih

theorem mem_srcTargets (edges : List PEdge) (nid k : String) :
    k ∈ srcTargets edges nid ↔ ∃ e ∈ edges, e.source = nid ∧ e.target = k := by
  simp only [srcTargets, List.mem_map, List.mem_filter, decide_eq_true_eq]
  constructor
  · rintro ⟨e, ⟨he, hs⟩, ht⟩
    exact ⟨e, he, hs, ht⟩
  · rintro ⟨e, he, hs, ht⟩
    exact ⟨e, ⟨he, hs⟩, ht⟩

theorem indexOf_append_left (l l' : List String) (a : String) (h : a ∈ l) :
    (l ++ l').indexOf a = l.indexOf a := by
  induction l with
  | nil => simp at h
  | cons b t ih =>
      by_cases hba : b = a
      · simp [List.indexOf_cons, hba]
      · have hat : a ∈ t := by
          rcases List.mem_cons.mp h with h1 | h1
          · exact absurd h1.symm hba
          · exact h1
        simp [List.indexOf_cons, hba, ih hat]

theorem indexOf_append_self (l : List String) (a : String) (h : a ∉ l) :
    (l ++ [a]).indexOf a = l.length := by
  induction l with
  | nil => simp
  | cons b t ih =>
      have hba : ¬ b = a := fun e => h (e ▸ List.mem_cons_self _ _)
      have hat : a ∉ t := fun e => h (List.mem_cons_of_mem _ e)
      simp [List.indexOf_cons, hba, ih hat]

theorem kahn_terminal (nodes : List PNode) (edges : List PEdge)
    (hv : ∀ e ∈ edges, e.source ∈ nodes.map PNode.id ∧ e.target ∈ nodes.map PNode.id)
    (rank : String → Nat)
    (hr : ∀ e ∈ edges, rank e.source < rank e.target)
    (inDeg : List (String × Int)) (order : List PNode)
    (inv : KahnInv nodes edges [] inDeg order) :
    KahnGoal nodes edges order := by
  have complete : ∀ k ∈ nodes.map PNode.id, k ∈ order.map PNode.id := by
    have key : ∀ r : Nat, ∀ k, rank k = r → k ∈ nodes.map PNode.id →
        k ∈ order.map PNode.id := by
      intro r
      induction r using Nat.strong_induction_on with
      | _ r ihr =>
          intro k hkr hkid
          by_cases hko : k ∈ order.map PNode.id
          · exact hko
          · exfalso
            have hsrcs : ∀ e ∈ edges, e.target = k → e.source ∈ order.map PNode.id := by
              intro e he het
              refine ihr (rank e.source) ?_ e.source rfl (hv e he).1
              rw [← hkr, ← het]
              exact hr e he
            have hfull : ctO edges (order.map PNode.id) k = ctA edges k := by
              unfold ctO ctA
              congr 1
              apply List.filter_congr
              intro e he
              by_cases het : e.target = k
              · simp [het, hsrcs e he het]
              · simp [het]
            exact (List.not_mem_nil k) ((inv.queue_iff k hkid hko).mpr hfull)
    intro k hk
    exact key (rank k) k rfl hk
  have hnodup : (order.map PNode.id).Nodup := by
    have h := inv.nodup
    rw [List.nodup_append] at h
    exact h.1
  refine ⟨hnodup, ?_, inv.order_mem, ?_⟩
  · intro k
    constructor
    · intro hk
      obtain ⟨n, hn, rfl⟩ := List.mem_map.mp hk
      exact List.mem_map_of_mem _ (inv.order_mem n hn)
    · exact complete k
  · intro e he het
    exact inv.sorted e he het

theorem kahnLoop_spec (nodes : List PNode) (edges : List PEdge)
    (hd : (nodes.map PNode.id).Nodup)
    (hv : ∀ e ∈ edges, e.source ∈ nodes.map PNode.id ∧ e.target ∈ nodes.map PNode.id)
    (rank : String → Nat)
    (hr : ∀ e ∈ edges, rank e.source < rank e.target) :
    ∀ (fuel : Nat) (queue : List String) (inDeg : List (String × Int)) (order : List PNode),
      KahnInv nodes edges queue inDeg order →
      nodes.length < fuel + order.length →
      KahnGoal nodes edges
        (kahnLoop (initNodeMap nodes) (buildGraph nodes edges).2 fuel queue inDeg order) := by
  intro fuel
  induction fuel with
  | zero =>
      intro queue inDeg order inv hfuel
      exfalso
      have hsub : order.map PNode.id ⊆ nodes.map PNode.id := by
        intro k hk
        obtain ⟨n, hn, rfl⟩ := List.mem_map.mp hk
        exact List.mem_map_of_mem _ (inv.order_mem n hn)
      have hnodup : (order.map PNode.id).Nodup := by
        have h := inv.nodup; rw [List.nodup_append] at h; exact h.1
      have hle := (List.subperm_of_subset hnodup hsub).length_le
      simp only [List.length_map] at hle
      omega
  | succ fuel ih =>
      intro queue inDeg order inv hfuel
      cases queue with
      | nil =>
          exact kahn_terminal nodes edges hv rank hr inDeg order inv
      | cons nid rest =>
          have hqids := inv.qids
          have hdeg := inv.deg
          have hnid_ids : nid ∈ nodes.map PNode.id := hqids nid (List.mem_cons_self _ _)
          have hnodup_all := inv.nodup
          rw [List.nodup_append] at hnodup_all
          obtain ⟨hnodup_o, hnodup_q, hdisj_oq⟩ := hnodup_all
          have hnid_no : nid ∉ order.map PNode.id :=
            fun h => hdisj_oq h (List.mem_cons_self _ _)
          have hnid_nrest : nid ∉ rest := (List.nodup_cons.mp hnodup_q).1
          obtain ⟨n0, hn0_mem, hn0_id⟩ := List.mem_map.mp hnid_ids
          have hmap : dget? nid (initNodeMap nodes) = some n0 := by
            rw [← hn0_id]
            exact dget?_initNodeMap nodes hd n0 hn0_mem
          have hadj : dget? nid (buildGraph nodes edges).2 =
              some (srcTargets edges nid) := by
            rw [buildGraph_snd nodes edges hd (fun e he => (hv e he).1), dget?_map_pairs,
              if_pos hnid_ids]
          have hself : nid ∉ srcTargets edges nid := by
            intro hmem
            obtain ⟨e, he, hes, het⟩ := (mem_srcTargets edges nid nid).mp hmem
            have hlt := hr e he
            rw [hes, het] at hlt
            exact lt_irrefl _ hlt
          have hbound : ∀ k : String,
              ctO edges (order.map PNode.id) k + (srcTargets edges nid).count k ≤
                ctA edges k := by
            intro k
            rw [count_srcTargets]
            unfold ctO ctA
            refine length_filter_add_le _ _ _ edges ?_ ?_ ?_
            · intro e _ hp
              simp only [decide_eq_true_eq] at hp ⊢
              exact hp.1
            · intro e _ hq
              simp only [decide_eq_true_eq] at hq ⊢
              exact hq.2
            · intro e _ hpq
              obtain ⟨hp, hq⟩ := hpq
              simp only [decide_eq_true_eq] at hp hq
              exact hnid_no (hq.1 ▸ hp.2)
          have hnidfull : ctO edges (order.map PNode.id) nid = ctA edges nid :=
            (inv.queue_iff nid hnid_ids hnid_no).mp (List.mem_cons_self _ _)
          have hcnt_nid : (srcTargets edges nid).count nid = 0 :=
            List.count_eq_zero.mpr hself
          have hfold_L : ∀ k ∈ srcTargets edges nid, ∃ v : Int,
              dget? k inDeg = some v ∧ ((srcTargets edges nid).count k : Int) ≤ v := by
            intro k hk
            obtain ⟨e, he, hes, het⟩ := (mem_srcTargets edges nid k).mp hk
            have hkid : k ∈ nodes.map PNode.id := by
              rw [← het]; exact (hv e he).2
            refine ⟨(ctA edges k : Int) - (ctO edges (order.map PNode.id) k : Int),
              hdeg k hkid, ?_⟩
            have hb := hbound k
            omega
          have hfold_disj : ∀ k ∈ rest, k ∉ srcTargets edges nid := by
            intro k hk hkL
            have hkq : k ∈ nid :: rest := List.mem_cons_of_mem _ hk
            have hkid : k ∈ nodes.map PNode.id := hqids k hkq
            have hko : k ∉ order.map PNode.id := fun h => hdisj_oq h hkq
            have hfull : ctO edges (order.map PNode.id) k = ctA edges k :=
              (inv.queue_iff k hkid hko).mp hkq
            have hpos : 0 < (srcTargets edges nid).count k := List.count_pos_iff.mpr hkL
            have hb := hbound k
            omega
          obtain ⟨f1, f2, f3⟩ :=
            kahnStepNeighbors_spec (srcTargets edges nid) inDeg rest hfold_L hfold_disj
          have hstep : kahnLoop (initNodeMap nodes) (buildGraph nodes edges).2 (fuel + 1)
                (nid :: rest) inDeg order =
              kahnLoop (initNodeMap nodes) (buildGraph nodes edges).2 fuel
                (kahnStepNeighbors (srcTargets edges nid) inDeg rest).2
                (kahnStepNeighbors (srcTargets edges nid) inDeg rest).1
                (order ++ [n0]) := by
            simp [kahnLoop, hmap, hadj]
          rw [hstep]
          have hoids' : (order ++ [n0]).map PNode.id = order.map PNode.id ++ [nid] := by
            rw [List.map_append]
            simp [hn0_id]
          have hctO' : ∀ k, ctO edges (order.map PNode.id ++ [nid]) k =
              ctO edges (order.map PNode.id) k + (srcTargets edges nid).count k := by
            intro k
            rw [ctO_append_single edges _ nid k hnid_no, count_srcTargets]
          apply ih
          · refine ⟨?_, ?_, ?_, ?_, ?_, ?_, ?_⟩
            · -- nodup
              rw [hoids', List.nodup_append]
              refine ⟨?_, f3 (List.nodup_cons.mp hnodup_q).2, ?_⟩
              · rw [List.nodup_append]
                refine ⟨hnodup_o, List.nodup_singleton _, ?_⟩
                simp only [List.disjoint_singleton]
                exact hnid_no
              · intro k hk hk2
                rcases (f2 k).mp hk2 with hkrest | hvalpos
                · rcases List.mem_append.mp hk with hko | hknid
                  · exact hdisj_oq hko (List.mem_cons_of_mem _ hkrest)
                  · simp only [List.mem_singleton] at hknid
                    exact hnid_nrest (hknid ▸ hkrest)
                · obtain ⟨hpos, hval⟩ := hvalpos
                  have hkL : k ∈ srcTargets edges nid := List.count_pos_iff.mp hpos
                  rcases List.mem_append.mp hk with hko | hknid
                  · have hkid : k ∈ nodes.map PNode.id := by
                      obtain ⟨n, hn, rfl⟩ := List.mem_map.mp hko
                      exact List.mem_map_of_mem _ (inv.order_mem n hn)
                    have h0 : ctO edges (order.map PNode.id) k = ctA edges k :=
                      inv.done_full k hko
                    rw [hdeg k hkid] at hval
                    have hinj := Option.some.inj hval
                    have hb := hbound k
                    omega
                  · simp only [List.mem_singleton] at hknid
                    exact hself (hknid ▸ hkL)
            · -- qids
              intro k hk
              rcases (f2 k).mp hk with hkrest | hvalpos
              · exact hqids k (List.mem_cons_of_mem _ hkrest)
              · obtain ⟨hpos, _⟩ := hvalpos
                have hkL : k ∈ srcTargets edges nid := List.count_pos_iff.mp hpos
                obtain ⟨e, he, hes, het⟩ := (mem_srcTargets edges nid k).mp hkL
                rw [← het]
                exact (hv e he).2
            · -- order_mem
              intro n hn
              rcases List.mem_append.mp hn with hno | hnn
              · exact inv.order_mem n hno
              · simp only [List.mem_singleton] at hnn
                exact hnn ▸ hn0_mem
            · -- deg
              intro k hkid
              rw [hoids']
              rw [f1 k _ (hdeg k hkid), hctO' k]
              congr 1
              push_cast
              ring
            · -- queue_iff
              intro k hkid hko'
              rw [hoids'] at hko' ⊢
              have hko : k ∉ order.map PNode.id := fun h => hko' (List.mem_append_left _ h)
              have hknid : k ≠ nid := fun e => hko' (List.mem_append_right _ (by simp [e]))
              rw [f2 k, hctO' k]
              constructor
              · rintro (hkrest | ⟨hpos, hval⟩)
                · have hfull : ctO edges (order.map PNode.id) k = ctA edges k :=
                    (inv.queue_iff k hkid hko).mp (List.mem_cons_of_mem _ hkrest)
                  have hb := hbound k
                  omega
                · rw [hdeg k hkid] at hval
                  have hinj := Option.some.inj hval
                  omega
              · intro heq
                by_cases hc : (srcTargets edges nid).count k = 0
                · have hfull : ctO edges (order.map PNode.id) k = ctA edges k := by omega
                  have hkq : k ∈ nid :: rest := (inv.queue_iff k hkid hko).mpr hfull
                  rcases List.mem_cons.mp hkq with he | hkrest
                  · exact absurd he hknid
                  · exact Or.inl hkrest
                · right
                  refine ⟨Nat.pos_of_ne_zero hc, ?_⟩
                  rw [hdeg k hkid]
                  congr 1
                  omega
            · -- done_full
              intro k hk
              rw [hoids'] at hk ⊢
              rw [hctO' k]
              rcases List.mem_append.mp hk with hko | hknid
              · have h0 := inv.done_full k hko
                have hb := hbound k
                omega
              · simp only [List.mem_singleton] at hknid
                subst hknid
                rw [hcnt_nid]
                omega
            · -- sorted
              intro e he het
              rw [hoids'] at het ⊢
              rcases List.mem_append.mp het with hto | htnid
              · obtain ⟨hso, hidx⟩ := inv.sorted e he hto
                refine ⟨List.mem_append_left _ hso, ?_⟩
                rw [indexOf_append_left _ _ _ hso, indexOf_append_left _ _ _ hto]
                exact hidx
              · simp only [List.mem_singleton] at htnid
                have hsrc_o : e.source ∈ order.map PNode.id := by
                  have hnidfull' :
                      (edges.filter
                          (fun e => decide (e.target = nid ∧
                            e.source ∈ order.map PNode.id))).length =
                        (edges.filter (fun e => decide (e.target = nid))).length :=
                    hnidfull
                  have hpt := filter_pointwise_of_length_eq
                    (fun e => decide (e.target = nid))
                    (fun e => decide (e.target = nid ∧ e.source ∈ order.map PNode.id))
                    edges
                    (fun x _ hq => by
                      simp only [decide_eq_true_eq] at hq ⊢
                      exact hq.1)
                    hnidfull'
                    e he (by simp [htnid])
                  simp only [decide_eq_true_eq] at hpt
                  exact hpt.2
                refine ⟨List.mem_append_left _ hsrc_o, ?_⟩
                rw [indexOf_append_left _ _ _ hsrc_o, htnid,
                  indexOf_append_self _ _ hnid_no]
                exact List.indexOf_lt_length.mpr hsrc_o
          · simp only [List.length_append, List.length_singleton]
            omega

/-- C2: for every acyclic graph with distinct node ids whose edges reference
existing nodes, `_topological_sort` returns an arrangement of exactly the
pipeline nodes (so `execute` visits every node exactly once on a successful
run), and for every edge the source node occurs strictly before the target
node in the execution order, so every upstream node has already been
executed — and its stored output is available — before its downstream node
runs. -/
theorem c2_topological_soundness (nodes : List PNode) (edges : List PEdge)
    (hd : (nodes.map PNode.id).Nodup)
    (hv : ∀ e ∈ edges, e.source ∈ nodes.map PNode.id ∧ e.target ∈ nodes.map PNode.id)
    (ha : Acyclic edges) :
    (topologicalSort nodes edges).Perm nodes ∧
      ∀ e ∈ edges,
        ((topologicalSort nodes edges).map PNode.id).indexOf e.source <
          ((topologicalSort nodes edges).map PNode.id).indexOf e.target := by
  obtain ⟨rank, hr⟩ := ha
  have htopo : topologicalSort nodes edges =
      kahnLoop (initNodeMap nodes) (buildGraph nodes edges).2 (nodes.length + 1)
        ((nodes.map PNode.id).filter (fun k => ctA edges k = 0))
        (buildGraph nodes edges).1 [] := by
    rw [← initial_queue_eq nodes edges hd (fun e he => (hv e he).1)]
    rfl
  have hinv : KahnInv nodes edges
      ((nodes.map PNode.id).filter (fun k => ctA edges k = 0))
      (buildGraph nodes edges).1 [] := by
    refine ⟨?_, ?_, ?_, ?_, ?_, ?_, ?_⟩
    · simpa using hd.filter _
    · intro k hk
      exact (List.mem_filter.mp hk).1
    · intro n hn
      simp at hn
    · intro k hkid
      simp only [List.map_nil]
      rw [buildGraph_fst nodes edges hd (fun e he => (hv e he).1),
        dget?_map_pairs nodes (fun j => (ctA edges j : Int)) k, if_pos hkid, ctO_nil]
      simp
    · intro k hkid _
      simp only [List.map_nil]
      rw [List.mem_filter, ctO_nil]
      constructor
      · rintro ⟨_, hc⟩
        simp only [decide_eq_true_eq] at hc
        omega
      · intro hc
        exact ⟨hkid, by simp; omega⟩
    · intro k hk
      simp at hk
    · intro e _ het
      simp at het
  have hgoal := kahnLoop_spec nodes edges hd hv rank hr (nodes.length + 1) _ _ [] hinv
    (by simp)
  rw [← htopo] at hgoal
  obtain ⟨hgnodup, hgmem, hgsub, hgsorted⟩ := hgoal
  constructor
  · have hfnodup : (topologicalSort nodes edges).Nodup := List.Nodup.of_map _ hgnodup
    have hnnodup : nodes.Nodup := List.Nodup.of_map _ hd
    rw [List.perm_ext_iff_of_nodup hfnodup hnnodup]
    intro n
    constructor
    · exact hgsub n
    · intro hn
      have hid : n.id ∈ (topologicalSort nodes edges).map PNode.id :=
        (hgmem n.id).mpr (List.mem_map_of_mem _ hn)
      obtain ⟨m, hm, hmid⟩ := List.mem_map.mp hid
      have hmn : m = n :=
        List.inj_on_of_nodup_map hd (hgsub m hm) hn hmid
      exact hmn ▸ hm
  · intro e he
    have het : e.target ∈ (topologicalSort nodes edges).map PNode.id :=
      (hgmem e.target).mpr (hv e he).2
    exact (hgsorted e he het).2

theorem mem_cleanup (outputs : List (String × String)) (fs : List String) (q : String) :
    q ∈ cleanup outputs fs ↔ q ∈ fs ∧ ∀ pr ∈ outputs, pr.2 = q → q = "" := by
  induction outputs generalizing fs with
  | nil => simp [cleanup]
  | cons p rest ih =>
      have hstep : cleanup (p :: rest) fs =
          cleanup rest
            (if p.2 ≠ "" ∧ p.2 ∈ fs then fs.filter (fun x => x ≠ p.2) else fs) := rfl
      rw [hstep, ih]
      by_cases h1 : p.2 = ""
      · have hcond : ¬ (p.2 ≠ "" ∧ p.2 ∈ fs) := fun hc => hc.1 h1
        rw [if_neg hcond]
        constructor
        · rintro ⟨hq, hrest⟩
          refine ⟨hq, ?_⟩
          intro pr hpr
          rcases List.mem_cons.mp hpr with rfl | hpr'
          · intro he; rw [← he, h1]
          · exact hrest pr hpr'
        · rintro ⟨hq, hall⟩
          exact ⟨hq, fun pr hpr => hall pr (List.mem_cons_of_mem _ hpr)⟩
      · by_cases h2 : p.2 ∈ fs
        · rw [if_pos ⟨h1, h2⟩]
          constructor
          · rintro ⟨hq, hrest⟩
            rw [List.mem_filter] at hq
            obtain ⟨hqf, hqne⟩ := hq
            simp only [decide_eq_true_eq] at hqne
            refine ⟨hqf, ?_⟩
            intro pr hpr
            rcases List.mem_cons.mp hpr with rfl | hpr'
            · intro he; exact absurd he.symm hqne
            · exact hrest pr hpr'
          · rintro ⟨hq, hall⟩
            have hne : q ≠ p.2 := by
              intro he
              have hq0 : q = "" := hall p (List.mem_cons_self _ _) he.symm
              exact h1 (he.symm.trans hq0)
            exact ⟨List.mem_filter.mpr ⟨hq, by simpa using hne⟩,
              fun pr hpr => hall pr (List.mem_cons_of_mem _ hpr)⟩
        · have hcond : ¬ (p.2 ≠ "" ∧ p.2 ∈ fs) := fun hc => h2 hc.2
          rw [if_neg hcond]
          constructor
          · rintro ⟨hq, hrest⟩
            refine ⟨hq, ?_⟩
            intro pr hpr
            rcases List.mem_cons.mp hpr with rfl | hpr'
            · intro he; exact absurd (by rw [he]; exact hq) h2
            · exact hrest pr hpr'
          · rintro ⟨hq, hall⟩
            exact ⟨hq, fun pr hpr => hall pr (List.mem_cons_of_mem _ hpr)⟩

theorem dget?_append_right_key {α : Type} (l : List (String × α)) (key : String) (v : α)
    (h : key ∉ l.map Prod.fst) : dget? key (l ++ [(key, v)]) = some v := by
  induction l with
  | nil => simp [dget?]
  | cons p rest ih =>
      simp only [List.map_cons, List.mem_cons] at h
      push_neg at h
      simp only [List.cons_append, dget?, if_neg (Ne.symm h.1)]
      exact ih h.2

theorem withRn_mem (cols : List String) :
    ∀ (seen rows : List Row) (r' : Row), r' ∈ withRn cols seen rows →
      ∃ r ∈ rows, ∃ j : Nat, r' = r ++ [("_rn", Val.vint j)] := by
  intro seen rows
  induction rows generalizing seen with
  | nil =>
      intro r' h
      simp [withRn] at h
  | cons r rest ih =>
      intro r' h
      rw [withRn] at h
      rcases List.mem_cons.mp h with he | hm
      · exact ⟨r, List.mem_cons_self _ _, _, he⟩
      · obtain ⟨r0, hr0, j, hj⟩ := ih (seen ++ [r]) r' hm
        exact ⟨r0, List.mem_cons_of_mem _ hr0, j, hj⟩

theorem distinctRows_subset :
    ∀ (seen rows : List Row), ∀ r ∈ distinctRows seen rows, r ∈ rows := by
  intro seen rows
  induction rows generalizing seen with
  | nil =>
      intro r h
      simp [distinctRows] at h
  | cons a rest ih =>
      intro r h
      rw [distinctRows] at h
      by_cases ha : a ∈ seen
      · rw [if_pos ha] at h
        exact List.mem_cons_of_mem _ (ih seen r h)
      · rw [if_neg ha] at h
        rcases List.mem_cons.mp h with rfl | hm
        · exact List.mem_cons_self _ _
        · exact List.mem_cons_of_mem _ (ih (seen ++ [a]) r hm)

/-- C1: the claim states that for every graph containing a cycle, `execute`
fails the run with a `GraphCycleError`, performs no node execution and
produces zero NodeExecutionRecords.  The code has no cycle check at all:
on the two-node cycle `n1 ⇄ n2`, `_topological_sort` silently returns an
empty order, and `execute` walks that empty order and completes the run
with status `"success"`, zero rows, no error message, and zero node
records — no cycle error is ever raised. -/
theorem c1_cycle_run_succeeds_without_error :
    topologicalSort [⟨"n1", "transform"⟩, ⟨"n2", "transform"⟩]
        [⟨"n1", "n2"⟩, ⟨"n2", "n1"⟩] = [] ∧
    (executeRun (fun _ _ => HandlerOutcome.err "boom")
        [⟨"n1", "transform"⟩, ⟨"n2", "transform"⟩]
        [⟨"n1", "n2"⟩, ⟨"n2", "n1"⟩] ["f1"]).1 =
      ⟨"success", some 0, none, [], [], []⟩ :=
  ⟨rfl, rfl⟩

/-- C3 counterexample: the claim states a transform/validate node with no
resolved upstream input fails immediately with a single attempt and no
backoff sleeps.  On a one-node graph with a transform node and no edges,
the code instead retries the missing-input failure like any other failure:
the run sleeps 2 and 4 time-units, records attempt number 3 on the node
log, and only then fails the node and the run. -/
theorem c3_missing_input_retried_counterexample :
    (executeRun (fun _ _ => HandlerOutcome.err "unused") [⟨"t", "transform"⟩] [] []).1 =
      ⟨"failed", none, some "Node t failed: Transform node has no inputs",
        [⟨"t", "transform", "failed", none,
          "Failed after 3 attempts: Transform node has no inputs", some 3⟩],
        [], [2, 4]⟩ :=
  rfl

/-- C3 (amended): a transform or validation node with no resolved upstream
input fails every attempt with the corresponding missing-input
`ExecutionError`, but the failure passes through the full retry policy —
three attempts against the same (empty) inputs with backoff sleeps 2 and 4
— after which the node is recorded failed with attempt number 3 and the
node-level error names the missing input. -/
theorem c3_missing_input_retried_amended (oracle : Oracle) (edges : List PEdge)
    (outputs : List (String × String)) (n : PNode) (m : String)
    (ht : (n.type = "transform" ∧ m = "Transform node has no inputs") ∨
          (n.type = "validation" ∧ m = "Validation node has no inputs"))
    (hi : getInputFiles n.id edges outputs = []) :
    processNode oracle edges outputs n =
      NodeStepResult.failed
        ⟨n.id, n.type, "failed", none, "Failed after 3 attempts: " ++ m, some 3⟩
        ("Node " ++ n.id ++ " failed: " ++ m) [2, 4] := by
  have hexec : ∀ a, executeNode oracle a n.id n.type edges outputs =
      HandlerOutcome.err m := by
    intro a
    rcases ht with ⟨ht, hm⟩ | ⟨ht, hm⟩ <;> simp [executeNode, ht, hm, hi]
  simp [processNode, runAttempts, hexec, maxRetries, retryDelay]

/-- C3 witness: the amended statement at the concrete one-node transform
graph with no edges. -/
theorem c3_missing_input_retried_amended_witness :
    getInputFiles "t" [] [] = [] ∧
    processNode (fun _ _ => HandlerOutcome.err "unused") [] [] ⟨"t", "transform"⟩ =
      NodeStepResult.failed
        ⟨"t", "transform", "failed", none,
          "Failed after 3 attempts: Transform node has no inputs", some 3⟩
        "Node t failed: Transform node has no inputs" [2, 4] :=
  ⟨rfl, c3_missing_input_retried_amended _ _ _ ⟨"t", "transform"⟩ _
    (Or.inl ⟨rfl, rfl⟩) rfl⟩

/-- C4: when a node's handler raises on all three attempts, the orchestrator
sleeps `retry_delay × attempt` (2 and 4) after the first and second failed
attempts — each retry re-resolving the same inputs from the unchanged
outputs mapping — and after the third failure marks the node failed
(attempt number 3, log text quoting the last error), marks the run failed
with an error naming the node id and the last error, and processes none of
the remaining nodes. -/
theorem c4_retry_exhausted_aborts_run (oracle : Oracle) (edges : List PEdge)
    (outputs : List (String × String)) (logs : List NodeLog) (sleeps : List Nat)
    (total : Nat) (n : PNode) (rest : List PNode) (m1 m2 m3 : String)
    (h1 : executeNode oracle 1 n.id n.type edges outputs = HandlerOutcome.err m1)
    (h2 : executeNode oracle 2 n.id n.type edges outputs = HandlerOutcome.err m2)
    (h3 : executeNode oracle 3 n.id n.type edges outputs = HandlerOutcome.err m3) :
    execNodes oracle edges (n :: rest) outputs logs sleeps total =
      ⟨"failed", none, some ("Node " ++ n.id ++ " failed: " ++ m3),
        logs ++ [⟨n.id, n.type, "failed", none,
          "Failed after 3 attempts: " ++ m3, some 3⟩],
        outputs, sleeps ++ [retryDelay * 1, retryDelay * 2]⟩ := by
  simp [execNodes, processNode, runAttempts, h1, h2, h3, maxRetries, retryDelay]

/-- C4 witness: the retry-exhaustion statement at a concrete two-node graph
whose first node always fails, showing the second node is never processed. -/
theorem c4_retry_exhausted_aborts_run_witness :
    executeNode (fun _ _ => HandlerOutcome.err "E") 1 "x" "file_input" [] [] =
      HandlerOutcome.err "E" ∧
    executeNode (fun _ _ => HandlerOutcome.err "E") 2 "x" "file_input" [] [] =
      HandlerOutcome.err "E" ∧
    executeNode (fun _ _ => HandlerOutcome.err "E") 3 "x" "file_input" [] [] =
      HandlerOutcome.err "E" ∧
    execNodes (fun _ _ => HandlerOutcome.err "E") []
        [⟨"x", "file_input"⟩, ⟨"y", "file_input"⟩] [] [] [] 0 =
      ⟨"failed", none, some "Node x failed: E",
        [⟨"x", "file_input", "failed", none, "Failed after 3 attempts: E", some 3⟩],
        [], [2, 4]⟩ :=
  ⟨rfl, rfl, rfl,
    c4_retry_exhausted_aborts_run _ _ _ _ _ _ ⟨"x", "file_input"⟩ _ _ _ _ rfl rfl rfl⟩

/-- C5 counterexample: the claim states a handler failing twice and
succeeding on the third attempt produces exactly 3 NodeExecutionRecords for
the node (attempts 1, 2, 3).  The code creates a single `NodeRunLog` per
node before the retry loop and updates it in place: the run below succeeds
but holds exactly one record for the node, not three. -/
theorem c5_three_attempts_single_record_counterexample :
    ((executeRun
        (fun _ a => if a ≤ 2 then HandlerOutcome.err "boom"
          else HandlerOutcome.ok 5 "loaded" (some "p1"))
        [⟨"n", "file_input"⟩] [] []).1.logs.filter
          (fun l => l.nodeId = "n")).length = 1 ∧
    ¬ (((executeRun
        (fun _ a => if a ≤ 2 then HandlerOutcome.err "boom"
          else HandlerOutcome.ok 5 "loaded" (some "p1"))
        [⟨"n", "file_input"⟩] [] []).1.logs.filter
          (fun l => l.nodeId = "n")).length = 3) ∧
    (executeRun
        (fun _ a => if a ≤ 2 then HandlerOutcome.err "boom"
          else HandlerOutcome.ok 5 "loaded" (some "p1"))
        [⟨"n", "file_input"⟩] [] []).1.status = "success" :=
  ⟨rfl, by decide, rfl⟩

/-- C5 (amended): for a node whose handler fails on attempts 1 and 2 and
succeeds on attempt 3, the run terminates with status success, and exactly
ONE NodeExecutionRecord exists for that node — a single in-place-updated
record with final status success whose attempt number is 2, the number of
the last failed attempt. -/
theorem c5_retry_then_success_amended (oracle : Oracle) (edges : List PEdge)
    (outputs : List (String × String)) (logs : List NodeLog) (sleeps : List Nat)
    (total : Nat) (n : PNode) (m1 m2 : String) (r : Nat) (L : String)
    (out : Option String)
    (h1 : executeNode oracle 1 n.id n.type edges outputs = HandlerOutcome.err m1)
    (h2 : executeNode oracle 2 n.id n.type edges outputs = HandlerOutcome.err m2)
    (h3 : executeNode oracle 3 n.id n.type edges outputs = HandlerOutcome.ok r L out) :
    execNodes oracle edges [n] outputs logs sleeps total =
      ⟨"success", some (total + r), none,
        logs ++ [⟨n.id, n.type, "success", some r, L, some 2⟩],
        (match out with | some p => dset n.id p outputs | none => outputs),
        sleeps ++ [2, 4]⟩ := by
  simp [execNodes, processNode, runAttempts, h1, h2, h3, maxRetries, retryDelay]
  cases out <;> rfl

/-- C5 witness: the amended statement at the concrete fail-fail-succeed
oracle on a one-node graph. -/
theorem c5_retry_then_success_amended_witness :
    executeNode
        (fun _ a => if a ≤ 2 then HandlerOutcome.err "boom"
          else HandlerOutcome.ok 5 "loaded" (some "p1")) 1 "n" "file_input" [] [] =
      HandlerOutcome.err "boom" ∧
    executeNode
        (fun _ a => if a ≤ 2 then HandlerOutcome.err "boom"
          else HandlerOutcome.ok 5 "loaded" (some "p1")) 2 "n" "file_input" [] [] =
      HandlerOutcome.err "boom" ∧
    executeNode
        (fun _ a => if a ≤ 2 then HandlerOutcome.err "boom"
          else HandlerOutcome.ok 5 "loaded" (some "p1")) 3 "n" "file_input" [] [] =
      HandlerOutcome.ok 5 "loaded" (some "p1") ∧
    execNodes
        (fun _ a => if a ≤ 2 then HandlerOutcome.err "boom"
          else HandlerOutcome.ok 5 "loaded" (some "p1")) []
        [⟨"n", "file_input"⟩] [] [] [] 0 =
      ⟨"success", some 5, none,
        [⟨"n", "file_input", "success", some 5, "loaded", some 2⟩],
        [("n", "p1")], [2, 4]⟩ :=
  ⟨rfl, rfl, rfl,
    c5_retry_then_success_amended
      (fun _ a => if a ≤ 2 then HandlerOutcome.err "boom"
        else HandlerOutcome.ok 5 "loaded" (some "p1"))
      [] [] [] [] 0 ⟨"n", "file_input"⟩ "boom" "boom" 5 "loaded" (some "p1")
      rfl rfl rfl⟩

/-- C6 counterexample: the claim states an unknown node type forwards the
first upstream path as its own output so that downstream nodes resolve it.
In the chain `a (file_input) → u (unknown type) → d (transform)`, node `u`
succeeds with zero rows, but no entry for `u` is ever stored in the outputs
mapping, so the downstream transform resolves no input and the run fails
with the missing-input error. -/
theorem c6_unknown_type_not_forwarded_counterexample :
    (executeRun
        (fun nid _ => if nid = "a" then HandlerOutcome.ok 1 "la" (some "pa")
          else HandlerOutcome.ok 2 "lo" (some "px"))
        [⟨"a", "file_input"⟩, ⟨"u", "mystery"⟩, ⟨"d", "transform"⟩]
        [⟨"a", "u"⟩, ⟨"u", "d"⟩] ["pa"]).1.status = "failed" ∧
    dget? "u" (executeRun
        (fun nid _ => if nid = "a" then HandlerOutcome.ok 1 "la" (some "pa")
          else HandlerOutcome.ok 2 "lo" (some "px"))
        [⟨"a", "file_input"⟩, ⟨"u", "mystery"⟩, ⟨"d", "transform"⟩]
        [⟨"a", "u"⟩, ⟨"u", "d"⟩] ["pa"]).1.outputs = none ∧
    (executeRun
        (fun nid _ => if nid = "a" then HandlerOutcome.ok 1 "la" (some "pa")
          else HandlerOutcome.ok 2 "lo" (some "px"))
        [⟨"a", "file_input"⟩, ⟨"u", "mystery"⟩, ⟨"d", "transform"⟩]
        [⟨"a", "u"⟩, ⟨"u", "d"⟩] ["pa"]).1.errorMessage =
      some "Node d failed: Transform node has no inputs" :=
  ⟨rfl, rfl, rfl⟩

/-- C6 (amended): a node whose declared type is not one of the recognized
node types succeeds on its first attempt with a zero row count and the
pass-through log text, but stores NO output path: the outputs mapping is
returned unchanged, so downstream nodes resolve nothing from this node. -/
theorem c6_unknown_type_pass_through_amended (oracle : Oracle) (edges : List PEdge)
    (outputs : List (String × String)) (n : PNode)
    (h : n.type ∉ knownTypes) :
    processNode oracle edges outputs n =
      NodeStepResult.ok
        ⟨n.id, n.type, "success", some 0, "Pass-through node type: " ++ n.type, none⟩
        outputs 0 [] := by
  have ht : n.type ≠ "transform" := fun e => h (by rw [e]; decide)
  have hv : n.type ≠ "validation" := fun e => h (by rw [e]; decide)
  simp [processNode, runAttempts, executeNode, ht, hv, h, maxRetries]

/-- C6 witness: the amended statement at a concrete unknown-typed node. -/
theorem c6_unknown_type_pass_through_amended_witness :
    (("mystery" : String) ∉ knownTypes) ∧
    processNode (fun _ _ => HandlerOutcome.err "unused") [] [] ⟨"u", "mystery"⟩ =
      NodeStepResult.ok
        ⟨"u", "mystery", "success", some 0, "Pass-through node type: mystery", none⟩
        [] 0 [] :=
  ⟨by decide,
    c6_unknown_type_pass_through_amended _ _ _ ⟨"u", "mystery"⟩ (by decide)⟩

/-- C7: the claim states the merge_columns SQL concatenates the coalesced
columns with the configured separator between consecutive columns.  The
source reads `params.get("separator", " ")` and never uses it: the emitted
SQL joins the fragments with the bare `||` operator, so on columns a, b
with separator "-" and row (a = "x", b = "y") the merged value is "xy",
while the specified value would be "x-y". -/
theorem c7_merge_columns_separator_unused :
    stepToSql (TStep.mergeColumns ["a", "b"] (some "-") "m") "_input" =
      "SELECT *, (COALESCE(CAST(\"a\" AS VARCHAR), '') || COALESCE(CAST(\"b\" AS VARCHAR), '')) AS \"m\" FROM _input" ∧
    mergeColumnsValue ["a", "b"] [("a", Val.vstr "x"), ("b", Val.vstr "y")] = "xy" ∧
    mergeColumnsValueSpec ["a", "b"] "-" [("a", Val.vstr "x"), ("b", Val.vstr "y")] =
      "x-y" ∧
    mergeColumnsValue ["a", "b"] [("a", Val.vstr "x"), ("b", Val.vstr "y")] ≠
      mergeColumnsValueSpec ["a", "b"] "-" [("a", Val.vstr "x"), ("b", Val.vstr "y")] :=
  ⟨rfl, rfl, rfl, by decide⟩

/-- C8: on every run and every exit path, each path held in the outputs
mapping at exit is deleted by the cleanup block before `execute` returns
(missing files are tolerated silently, and the empty string is never an
on-disk file), so no stored scratch path remains on disk afterwards. -/
theorem c8_scratch_cleanup_deletes_all (oracle : Oracle) (nodes : List PNode)
    (edges : List PEdge) (fs : List String) (hfs : "" ∉ fs) :
    ∀ pr ∈ (executeRun oracle nodes edges fs).1.outputs,
      pr.2 ∉ (executeRun oracle nodes edges fs).2 := by
  intro pr hpr hmem
  have hre : (executeRun oracle nodes edges fs).2 =
      cleanup (executeRun oracle nodes edges fs).1.outputs fs := rfl
  rw [hre, mem_cleanup] at hmem
  obtain ⟨hin, hall⟩ := hmem
  have hempty : pr.2 = "" := hall pr hpr rfl
  exact hfs (hempty ▸ hin)

/-- C8 witness: the cleanup statement at a concrete successful run that
stored the path "q", which existed on disk beforehand. -/
theorem c8_scratch_cleanup_deletes_all_witness :
    (("" : String) ∉ (["q", "z"] : List String)) ∧
    ("n", "q") ∈ (executeRun (fun _ _ => HandlerOutcome.ok 7 "ok" (some "q"))
        [⟨"n", "file_input"⟩] [] ["q", "z"]).1.outputs ∧
    ("q" : String) ∉ (executeRun (fun _ _ => HandlerOutcome.ok 7 "ok" (some "q"))
        [⟨"n", "file_input"⟩] [] ["q", "z"]).2 :=
  ⟨by decide, by decide,
    c8_scratch_cleanup_deletes_all _ _ _ _ (by decide) ("n", "q") (by decide)⟩

/-- C9: for a deduplicate_rows step with a non-empty column list, every row
of the evaluated compiled query is an input row extended with a trailing
`_rn` column (value 1), so the output schema is the input schema plus
`_rn` — the input schema is not preserved; with an empty column list the
step compiles to SELECT DISTINCT and every output row is an input row,
schema unchanged. -/
theorem c9_dedup_adds_rn_column (cols : List String) (rows : List Row)
    (hc : cols ≠ []) (hr : ∀ r ∈ rows, "_rn" ∉ r.map Prod.fst) :
    (∀ r' ∈ dedupEval cols rows, ∃ r ∈ rows,
        r' = r ++ [("_rn", Val.vint 1)] ∧
        r'.map Prod.fst = r.map Prod.fst ++ ["_rn"] ∧
        r'.map Prod.fst ≠ r.map Prod.fst) ∧
    (∀ r' ∈ dedupEval [] rows, r' ∈ rows) := by
  constructor
  · intro r' hr'
    rw [dedupEval, if_neg hc, List.mem_filter] at hr'
    obtain ⟨hmem, hrn⟩ := hr'
    obtain ⟨r, hrr, j, hj⟩ := withRn_mem cols [] rows r' hmem
    have hkey : dget? "_rn" r' = some (Val.vint j) := by
      rw [hj]
      exact dget?_append_right_key r "_rn" (Val.vint j) (hr r hrr)
    simp only [decide_eq_true_eq] at hrn
    rw [hkey] at hrn
    have hj1 : j = 1 := by
      have hv := Option.some.inj hrn
      exact Val.vint.inj hv
    subst hj1
    refine ⟨r, hrr, hj, ?_, ?_⟩
    · rw [hj]
      simp
    · rw [hj]
      intro hcontra
      have hlen := congrArg List.length hcontra
      simp at hlen
  · intro r' h
    rw [dedupEval, if_pos rfl] at h
    exact distinctRows_subset [] rows r' h

/-- C9 witness: the schema statement at the spec's own sku example. -/
theorem c9_dedup_adds_rn_column_witness :
    (["sku"] ≠ ([] : List String)) ∧
    (∀ r ∈ ([[("sku", Val.vint 1), ("name", Val.vstr "x")],
             [("sku", Val.vint 1), ("name", Val.vstr "y")],
             [("sku", Val.vint 2), ("name", Val.vstr "z")]] : List Row),
        "_rn" ∉ r.map Prod.fst) ∧
    (∀ r' ∈ dedupEval ["sku"]
        [[("sku", Val.vint 1), ("name", Val.vstr "x")],
         [("sku", Val.vint 1), ("name", Val.vstr "y")],
         [("sku", Val.vint 2), ("name", Val.vstr "z")]],
      ∃ r ∈ ([[("sku", Val.vint 1), ("name", Val.vstr "x")],
              [("sku", Val.vint 1), ("name", Val.vstr "y")],
              [("sku", Val.vint 2), ("name", Val.vstr "z")]] : List Row),
        r' = r ++ [("_rn", Val.vint 1)] ∧
        r'.map Prod.fst = r.map Prod.fst ++ ["_rn"] ∧
        r'.map Prod.fst ≠ r.map Prod.fst) :=
  ⟨by decide, by decide,
    (c9_dedup_adds_rn_column ["sku"]
      [[("sku", Val.vint 1), ("name", Val.vstr "x")],
       [("sku", Val.vint 1), ("name", Val.vstr "y")],
       [("sku", Val.vint 2), ("name", Val.vstr "z")]]
      (by decide) (by decide)).1⟩

/-- C10: for a node that succeeds on its first attempt, the committed node
record's attempt number remains unset (null); for a node that succeeds
after k ≥ 1 failed attempts (k < 3), the recorded attempt number is k, the
number of the last failed attempt, not the number of the successful
attempt. -/
theorem c10_attempt_no_last_failure (oracle : Oracle) (edges : List PEdge)
    (outputs : List (String × String)) (n : PNode) (k r : Nat) (L : String)
    (out : Option String) (m : Nat → String)
    (hk : k < maxRetries)
    (herr : ∀ a, 1 ≤ a → a ≤ k →
      executeNode oracle a n.id n.type edges outputs = HandlerOutcome.err (m a))
    (hok : executeNode oracle (k + 1) n.id n.type edges outputs =
      HandlerOutcome.ok r L out) :
    processNode oracle edges outputs n =
      NodeStepResult.ok
        ⟨n.id, n.type, "success", some r, L, if k = 0 then none else some k⟩
        (match out with | some p => dset n.id p outputs | none => outputs) r
        ((List.range k).map (fun i => retryDelay * (i + 1))) := by
  have hk3 : k < 3 := hk
  interval_cases k
  · simp [processNode, runAttempts, hok, maxRetries, retryDelay]
    cases out <;> rfl
  · have h1 := herr 1 (by omega) (by omega)
    simp [processNode, runAttempts, h1, hok, maxRetries, retryDelay]
    cases out <;> exact ⟨rfl, by decide⟩
  · have h1 := herr 1 (by omega) (by omega)
    have h2 := herr 2 (by omega) (by omega)
    simp [processNode, runAttempts, h1, h2, hok, maxRetries, retryDelay]
    cases out <;> exact ⟨rfl, by decide⟩

/-- C10 witness: the attempt-number statement at k = 2 with a concrete
fail-fail-succeed oracle. -/
theorem c10_attempt_no_last_failure_witness :
    2 < maxRetries ∧
    (∀ a, 1 ≤ a → a ≤ 2 →
      executeNode
        (fun _ a => if a ≤ 2 then HandlerOutcome.err "boom"
          else HandlerOutcome.ok 5 "loaded" (some "p1")) a "n" "file_input" [] [] =
        HandlerOutcome.err "boom") ∧
    executeNode
        (fun _ a => if a ≤ 2 then HandlerOutcome.err "boom"
          else HandlerOutcome.ok 5 "loaded" (some "p1")) 3 "n" "file_input" [] [] =
      HandlerOutcome.ok 5 "loaded" (some "p1") ∧
    processNode
        (fun _ a => if a ≤ 2 then HandlerOutcome.err "boom"
          else HandlerOutcome.ok 5 "loaded" (some "p1")) [] [] ⟨"n", "file_input"⟩ =
      NodeStepResult.ok
        ⟨"n", "file_input", "success", some 5, "loaded", some 2⟩
        [("n", "p1")] 5 [2, 4] :=
  ⟨by decide,
   fun a h1 h2 => by interval_cases a <;> rfl,
   rfl,
   c10_attempt_no_last_failure
     (fun _ a => if a ≤ 2 then HandlerOutcome.err "boom"
       else HandlerOutcome.ok 5 "loaded" (some "p1"))
     [] [] ⟨"n", "file_input"⟩ 2 5 "loaded" (some "p1") (fun _ => "boom")
     (by decide)
     (fun a h1 h2 => by interval_cases a <;> rfl)
     rfl⟩

/-- C2 witness: the topological-soundness statement at the concrete chain
a → b → c. -/
theorem c2_topological_soundness_witness :
    (([⟨"a", "file_input"⟩, ⟨"b", "transform"⟩, ⟨"c", "file_output"⟩] : List PNode).map
        PNode.id).Nodup ∧
    (∀ e ∈ ([⟨"a", "b"⟩, ⟨"b", "c"⟩] : List PEdge),
      e.source ∈ ([⟨"a", "file_input"⟩, ⟨"b", "transform"⟩,
          ⟨"c", "file_output"⟩] : List PNode).map PNode.id ∧
      e.target ∈ ([⟨"a", "file_input"⟩, ⟨"b", "transform"⟩,
          ⟨"c", "file_output"⟩] : List PNode).map PNode.id) ∧
    Acyclic [⟨"a", "b"⟩, ⟨"b", "c"⟩] ∧
    ((topologicalSort [⟨"a", "file_input"⟩, ⟨"b", "transform"⟩, ⟨"c", "file_output"⟩]
        [⟨"a", "b"⟩, ⟨"b", "c"⟩]).Perm
      [⟨"a", "file_input"⟩, ⟨"b", "transform"⟩, ⟨"c", "file_output"⟩] ∧
      ∀ e ∈ ([⟨"a", "b"⟩, ⟨"b", "c"⟩] : List PEdge),
        ((topologicalSort [⟨"a", "file_input"⟩, ⟨"b", "transform"⟩,
            ⟨"c", "file_output"⟩] [⟨"a", "b"⟩, ⟨"b", "c"⟩]).map PNode.id).indexOf
          e.source <
        ((topologicalSort [⟨"a", "file_input"⟩, ⟨"b", "transform"⟩,
            ⟨"c", "file_output"⟩] [⟨"a", "b"⟩, ⟨"b", "c"⟩]).map PNode.id).indexOf
          e.target) :=
  ⟨by decide, by decide,
   ⟨fun s => if s = "a" then 0 else if s = "b" then 1 else 2, by decide⟩,
   c2_topological_soundness
     [⟨"a", "file_input"⟩, ⟨"b", "transform"⟩, ⟨"c", "file_output"⟩]
     [⟨"a", "b"⟩, ⟨"b", "c"⟩] (by decide) (by decide)
     ⟨fun s => if s = "a" then 0 else if s = "b" then 1 else 2, by decide⟩⟩
